import Mathlib

/-!
Verification of the Clawless agent-session runtime and delivery pipeline.

This file contains a shallow embedding of:
* `src/messaging/messageTruncator.ts` (`getSafeMarkdownSplitPoint`,
  `smartTruncate`, `splitIntoSmartChunks`) — strings are modelled as
  `List Char`, JavaScript index arithmetic as `Nat`, the floating-point
  threshold comparisons (`> limit * 0.7` etc.) as exact rational
  comparisons by cross multiplication;
* `src/acp/runtimeManager.ts` (`AcpRuntimeManager`): the synchronous
  prefixes of `runAcpPrompt` and `ensureAcpSession`, the settle logic of
  the prompt promise (`failOnce` / `resolveOnce`), and the process
  `close` handler, as explicit transition functions on a runtime-state
  record;
* `src/messaging/messageQueue.ts` (`createMessageQueueProcessor`): the
  FIFO single-flight drain loop as a trace-producing function.

All definitions are executable; theorems about concrete inputs are
settled by `decide`.
-/

namespace Clawless

/-! ## Character helpers -/

/-- The backtick character (U+0060), written via its code point. -/
def btick : Char := Char.ofNat 96

/-- Characters stripped by JavaScript `trimStart` / `trimEnd`
(ASCII whitespace as used by the repository's inputs). -/
def isJsWs (c : Char) : Bool :=
  c = ' ' || c = '\t' || c = '\n' || c = '\r' ||
  c = Char.ofNat 11 || c = Char.ofNat 12

/-- Model of JavaScript `String.prototype.trimStart`. -/
def trimStartL (s : List Char) : List Char := s.dropWhile isJsWs

/-- Model of JavaScript `String.prototype.trimEnd`. -/
def trimEndL (s : List Char) : List Char :=
  (s.reverse.dropWhile isJsWs).reverse

/-- A character matched by the language-tag regular expression
`/^([a-zA-Z0-9]+)/` in `splitIntoSmartChunks`. -/
def isLangChar (c : Char) : Bool := c.isAlpha || c.isDigit

/-- The triple-backtick fence marker. -/
def tbt : List Char := [btick, btick, btick]

/-- Number of non-overlapping occurrences of triple backticks, scanned
left to right — the value of `s.split('\x60\x60\x60').length - 1` in the
source. -/
def countTBT : List Char → Nat
  | a :: b :: c :: rest =>
    if a = btick ∧ b = btick ∧ c = btick then countTBT rest + 1
    else countTBT (b :: c :: rest)
  | _ => 0

/-- Does `pat` occur in `s` starting at index `i`? -/
def matchesAt (pat s : List Char) (i : Nat) : Bool :=
  (s.drop i).take pat.length = pat

/-- Model of JavaScript `s.lastIndexOf(pat)`: the largest start index of
an occurrence of `pat`, or `none` (JS `-1`). -/
def jsLastIndexOf (s pat : List Char) : Option Nat :=
  ((List.range (s.length + 1)).filter (matchesAt pat s)).getLast?

/-- Model of JavaScript `s.indexOf(pat, start)`: the smallest start index
`≥ start` of an occurrence of `pat`, or `none` (JS `-1`). -/
def jsIndexOfFrom (s pat : List Char) (start : Nat) : Option Nat :=
  ((List.range (s.length + 1)).filter
    (fun i => decide (start ≤ i) && matchesAt pat s i)).head?

/-- First index `≥ i` whose character satisfies `p`, or `s.length`
(`i` itself when `i ≥ s.length`) — the JS loop
`while (i < len && !p(text[i])) i++`. -/
def findIdxFrom (p : Char → Bool) (s : List Char) (i : Nat) : Nat :=
  i + ((s.drop i).takeWhile (fun c => !(p c))).length

/-- The JS scan `while (i < len && text[i] !== close) { if (text[i] ===
'\\' && i + 1 < len) i++; i++ }`: first unescaped occurrence of `close`
at index `≥ i`, where `suffix = s.drop i`.  Returns the absolute index of
the found character, or an index `≥ s.length` when not found. -/
def scanToUnescaped (close : Char) : List Char → Nat → Nat
  | [], i => i
  | c :: rest, i =>
    if c = close then i
    else if c = '\\' then
      match rest with
      | [] => i + 1
      | _ :: rest2 => scanToUnescaped close rest2 (i + 2)
    else scanToUnescaped close rest (i + 1)

/-! ## getSafeMarkdownSplitPoint -/

/-- After the closing `]` of a link/image was found at index `j`, consume
an optional `(url)` part: the second half of the `[`/`![` branch of the
`getSafeMarkdownSplitPoint` loop body.  `start` is the construct's start
index. -/
def bracketScan (text : List Char) (lim start j : Nat) : Nat ⊕ Nat :=
  if lim ≤ j then .inl start
  else
    -- consume ], then an optional (url)
    if text.getD (j + 1) ' ' = '(' ∧ j + 1 < text.length then
      if lim ≤ scanToUnescaped ')' (text.drop (j + 2)) (j + 2) then .inl start
      else .inr (scanToUnescaped ')' (text.drop (j + 2)) (j + 2) + 1)
    else .inr (j + 1)

/-- The triple-backtick arm of the `getSafeMarkdownSplitPoint` loop body
once the close-marker search result is known: an unfound or beyond-limit
close returns `lim`, otherwise the scan continues after the close. -/
def tbtSkip (lim : Nat) : Option Nat → Nat ⊕ Nat
  | none => .inl lim
  | some closeIndex =>
    if lim ≤ closeIndex then .inl lim else .inr (closeIndex + 3)

/-- One decision of the `getSafeMarkdownSplitPoint` while-loop body at
position `i` (`i < lim`): either an early return (`.inl r`) or the next
scan position (`.inr i'`). -/
def safeStep (text : List Char) (lim i : Nat) : Nat ⊕ Nat :=
  -- Skip backslash-escaped characters
  if text.getD i ' ' = '\\' ∧ i + 1 < text.length then .inr (i + 2)
  else if text.getD i ' ' = btick then
    if matchesAt tbt text i then
      -- triple-backtick code block: skip the language spec, find the close
      tbtSkip lim (jsIndexOfFrom text tbt (findIdxFrom (fun c => c = '\n') text (i + 3)))
    else
      -- single-backtick inline code span
      if findIdxFrom (fun c => c = btick) text (i + 1) < lim then
        .inr (findIdxFrom (fun c => c = btick) text (i + 1) + 1)
      else .inl i
  else if (text.getD i ' ' = '!' ∧ text.getD (i + 1) ' ' = '[' ∧ i + 1 < text.length) ∨
      text.getD i ' ' = '[' then
    -- markdown image ![alt](url) or link [text](url)
    bracketScan text lim i
      (scanToUnescaped ']'
        (text.drop (if text.getD i ' ' = '[' then i + 1 else i + 2))
        (if text.getD i ' ' = '[' then i + 1 else i + 2))
  else .inr (i + 1)

/-- Fuelled interpretation of the `getSafeMarkdownSplitPoint` loop.  Fuel
is only a structural-recursion device: the position strictly increases,
so `lim + 1` units never run out. -/
def safeScan (text : List Char) (lim : Nat) : Nat → Nat → Nat
  | 0, _ => lim
  | fuel + 1, i =>
    if i < lim then
      match safeStep text lim i with
      | .inl r => r
      | .inr i2 => safeScan text lim fuel i2
    else lim

/-- Model of `getSafeMarkdownSplitPoint(text, splitPoint)`. -/
def getSafeMarkdownSplitPoint (text : List Char) (splitPoint : Nat) : Nat :=
  let lim := min splitPoint text.length
  safeScan text lim (lim + 1) 0

/-! ## smartTruncate -/

/-- The boundary-preference chain shared by `smartTruncate` and
`splitIntoSmartChunks`: last paragraph break if beyond half the cut,
else last line break beyond 0.7 of the cut, else last space beyond 0.8
of the cut, else the cut itself.  The JS float comparisons
`> cut*0.5 / > cut*0.7 / > cut*0.8` are modelled exactly by cross
multiplication. -/
def preferredSplitIndex (subText : List Char) (cut : Nat) : Nat :=
  let viaSpace : Nat :=
    match jsLastIndexOf subText [' '] with
    | some s => if 10 * s > 8 * cut then s else cut
    | none => cut
  let viaLine : Nat :=
    match jsLastIndexOf subText ['\n'] with
    | some l => if 10 * l > 7 * cut then l else viaSpace
    | none => viaSpace
  match jsLastIndexOf subText ['\n', '\n'] with
  | some p => if 2 * p > cut then p else viaLine
  | none => viaLine

/-- The truncated body before the ellipsis is appended:
`text.slice(0, splitIndex).trimEnd()`, with a closing fence appended when
the cut leaves a code block open. -/
def truncBody (text : List Char) (cutIndex : Nat) : List Char :=
  if countTBT (trimEndL
      (text.take (preferredSplitIndex (text.take cutIndex) cutIndex))) % 2 ≠ 0 then
    trimEndL (text.take (preferredSplitIndex (text.take cutIndex) cutIndex)) ++
      '\n' :: tbt
  else trimEndL (text.take (preferredSplitIndex (text.take cutIndex) cutIndex))

/-- Model of `smartTruncate(text, { maxLength, ellipsis })` from
`messageTruncator.ts`.  `reserveLength = ellipsis.length + 8` and
`cutIndex = maxLength - reserveLength`; the JS `cutIndex <= 0` test is
the `Nat` comparison `maxLength ≤ reserveLength`. -/
def smartTruncate (text : List Char) (maxLength : Nat) (ellipsis : List Char) : List Char :=
  if text.length ≤ maxLength then text
  else if maxLength ≤ ellipsis.length + 8 then text.take maxLength
  else truncBody text (maxLength - (ellipsis.length + 8)) ++ ellipsis

/-! ## splitIntoSmartChunks -/

/-- The JS `if (splitPoint > 0 && remaining[splitPoint - 1] === '\\')
splitPoint -= 1`: don't split in the middle of a backslash escape. -/
def backslashAdjust (remaining : List Char) (sp0 : Nat) : Nat :=
  if 0 < sp0 ∧ remaining.getD (sp0 - 1) ' ' = '\\' then sp0 - 1 else sp0

/-- The split point chosen by one `splitIntoSmartChunks` iteration: the
preference chain on the first `limit` characters, moved off a backslash,
adjusted by `getSafeMarkdownSplitPoint`, and forced to `limit` when it
would be 0 (the JS `if (splitPoint <= 0) splitPoint = limit`). -/
def finalSplitPoint (remaining : List Char) (limit : Nat) : Nat :=
  if getSafeMarkdownSplitPoint remaining
      (backslashAdjust remaining (preferredSplitIndex (remaining.take limit) limit)) = 0
  then limit
  else getSafeMarkdownSplitPoint remaining
      (backslashAdjust remaining (preferredSplitIndex (remaining.take limit) limit))

/-- The language tag re-opened with a carried-over fence: the
alphanumeric run following the last fence marker of the chunk
(`match(/^([a-zA-Z0-9]+)/)`). -/
def fenceLanguage (chunk0 : List Char) : List Char :=
  (match jsLastIndexOf chunk0 tbt with
   | some k => chunk0.drop (k + 3)
   | none => chunk0.drop 2).takeWhile isLangChar
   -- the `none` arm is JS `slice(-1 + 3)`; unreachable when the count is odd

/-- The fence-carrying arm of a split iteration: close the open fence in
the chunk and re-open it (with the language tag) at the head of the new
remaining, unless that would fail to make forward progress. -/
def splitStepFence (remaining : List Char) (sp : Nat) (chunk0 : List Char) :
    List Char × List Char :=
  -- Guard against non-progress
  if remaining.length ≤
      (tbt ++ fenceLanguage chunk0 ++ '\n' :: trimStartL (remaining.drop sp)).length then
    (chunk0 ++ '\n' :: tbt, trimStartL (remaining.drop sp))
  else
    (chunk0 ++ '\n' :: tbt,
     tbt ++ fenceLanguage chunk0 ++ '\n' :: trimStartL (remaining.drop sp))

/-- One iteration of the `splitIntoSmartChunks` while-loop on a
`remaining` with `remaining.length > maxLength`: returns the emitted
chunk and the new `remaining`. -/
def splitStep (remaining : List Char) (limit : Nat) : List Char × List Char :=
  if countTBT (trimEndL (remaining.take (finalSplitPoint remaining limit))) % 2 ≠ 0 then
    splitStepFence remaining (finalSplitPoint remaining limit)
      (trimEndL (remaining.take (finalSplitPoint remaining limit)))
  else
    (trimEndL (remaining.take (finalSplitPoint remaining limit)),
     trimStartL (remaining.drop (finalSplitPoint remaining limit)))

/-- Fuelled interpretation of the `splitIntoSmartChunks` while-loop; the
remaining text strictly shrinks each iteration (see
`splitStep_length_lt`), so `remaining.length` units of fuel never run
out. -/
def splitChunks (limit maxLength : Nat) : Nat → List Char → List (List Char)
  | _, [] => []
  | 0, remaining => [remaining]
  | fuel + 1, remaining =>
    if remaining.length ≤ maxLength then [remaining]
    else
      let s := splitStep remaining limit
      s.1 :: splitChunks limit maxLength fuel s.2

/-- The internal split limit: `reserve = min(20, floor(maxLength * 0.1))`
is exactly `min 20 (maxLength / 10)` for the integer arguments in play,
and `limit = max(maxLength - reserve, 1)`. -/
def splitLimit (maxLength : Nat) : Nat :=
  max (maxLength - min 20 (maxLength / 10)) 1

/-- Model of `splitIntoSmartChunks(text, maxLength)` from
`messageTruncator.ts`. -/
def splitIntoSmartChunks (text : List Char) (maxLength : Nat) : List (List Char) :=
  if text = [] then [[]]
  else if text.length ≤ maxLength then [text]
  else splitChunks (splitLimit maxLength) maxLength text.length text

/-! ## AcpRuntimeManager (src/acp/runtimeManager.ts)

The runtime manager is single-threaded: concurrency exists only between
atomic callback segments (the synchronous prefix of each method up to its
first `await`, and each event/promise callback).  Each such segment is
modelled as a pure transition function on an explicit state record. -/

/-- The `AcpState` enum. -/
inductive AcpState where
  | IDLE | STARTING | READY | PROMPTING | ERROR | SHUTTING_DOWN
deriving DecidableEq, Repr

/-- A spawned child-process handle: `killed` flag and `exitCode`
(`none` while the process is running). -/
structure ProcHandle where
  killed : Bool
  exitCode : Option Int
deriving DecidableEq, Repr

/-- The mutable fields of `AcpRuntimeManager`.  Connection, session id
and promise handles are opaque tokens (`Nat`); `prewarmScheduled` is a
ghost flag recording that `scheduleAcpPrewarm` was triggered (its
background `ensureAcpSession` run is a separate later task). -/
structure RuntimeState where
  state : AcpState
  agentProcess : Option ProcHandle
  acpConnection : Option Nat
  acpSessionId : Option Nat
  sessionReadyPromise : Option Nat
  activePromptCollector : Option Nat
  manualAbortRequested : Bool
  prewarmScheduled : Bool
deriving DecidableEq, Repr

/-- `hasHealthyAcpRuntime()`: READY or PROMPTING with connection,
session id and a live (not killed) process. -/
def hasHealthyAcpRuntime (s : RuntimeState) : Bool :=
  decide (s.state = AcpState.READY ∨ s.state = AcpState.PROMPTING) &&
  s.acpConnection.isSome && s.acpSessionId.isSome &&
  s.agentProcess.elim false (fun p => !p.killed)

/-- Result of the synchronous prefix of `ensureAcpSession` (up to its
first `await`). -/
inductive EnsureOutcome where
  | alreadyHealthy
  | awaitInFlight (p : Nat)
  | refusedWrongState
  | started (p : Nat)
deriving DecidableEq, Repr

/-- Synchronous prefix of `ensureAcpSession()`: return if healthy; await
the in-flight `sessionReadyPromise` if one exists; refuse outside
IDLE/ERROR; otherwise transition to STARTING and start
`initializeSession()`, whose own synchronous prefix spawns the agent
process and creates the protocol connection before its first `await`. -/
def ensureAcpSessionStep (s : RuntimeState) (freshPromise freshConn : Nat) :
    EnsureOutcome × RuntimeState :=
  if hasHealthyAcpRuntime s then (.alreadyHealthy, s)
  else
    match s.sessionReadyPromise with
    | some p => (.awaitInFlight p, s)
    | none =>
      if s.state ≠ AcpState.IDLE ∧ s.state ≠ AcpState.ERROR then
        (.refusedWrongState, s)
      else
        (.started freshPromise,
         { s with
            state := AcpState.STARTING
            sessionReadyPromise := some freshPromise
            agentProcess := some ⟨false, none⟩
            acpConnection := some freshConn })

/-- Whether an `EnsureOutcome` spawned a process. -/
def isSpawn : EnsureOutcome → Bool
  | .started _ => true
  | _ => false

/-- N concurrent `ensureAcpSession` callers: in the single-threaded
runtime their synchronous prefixes run one after another, each seeing the
state the previous one left. -/
def runEnsureCalls : Nat → RuntimeState → Nat → List EnsureOutcome × RuntimeState
  | 0, s, _ => ([], s)
  | n + 1, s, fresh =>
    let r := ensureAcpSessionStep s fresh fresh
    let rest := runEnsureCalls n r.2 (fresh + 1)
    (r.1 :: rest.1, rest.2)

/-- Result of the synchronous prefix of `runAcpPrompt`. -/
inductive PromptStartOutcome where
  | rejectedConcurrent    -- Error: cannot start a new prompt while another is in progress
  | rejectedShuttingDown  -- Error: cannot start a new prompt while shutting down
  | proceeded (invocation : Nat)
deriving DecidableEq, Repr

/-- Prefix of `runAcpPrompt(promptText, onChunk)`: the two reentrancy
guards throw before any mutation; otherwise the session is ensured if
unhealthy, the state is set to PROMPTING and (once the promise executor
runs) the active prompt collector is installed. -/
def runAcpPromptStart (s : RuntimeState) (freshPromise freshConn freshInvocation : Nat) :
    PromptStartOutcome × RuntimeState :=
  if s.state = AcpState.PROMPTING then (.rejectedConcurrent, s)
  else if s.state = AcpState.SHUTTING_DOWN then (.rejectedShuttingDown, s)
  else
    let s1 :=
      if hasHealthyAcpRuntime s then s
      else (ensureAcpSessionStep s freshPromise freshConn).2
    (.proceeded freshInvocation,
     { s1 with
        state := AcpState.PROMPTING
        activePromptCollector := some freshInvocation })

/-- The error variants the prompt promise can be rejected with. -/
inductive PromptErrorKind where
  | abortedByUser        -- '... ACP prompt was aborted by user'
  | cancelledExternally  -- '... ACP prompt was cancelled'
  | promptFailed         -- catch-branch of the protocol prompt call
deriving DecidableEq, Repr

/-- Protocol `stopReason` values; the source only tests for
`'cancelled'`. -/
inductive StopReason where
  | cancelled | endTurn | otherReason
deriving DecidableEq, Repr

deriving instance DecidableEq for Except

/-- Runtime state plus the settling state of one in-flight
`runAcpPrompt` invocation (its `isSettled` closure flag and the value the
returned promise settled with, if any). -/
structure PromptSystem where
  rt : RuntimeState
  isSettled : Bool
  settled : Option (Except PromptErrorKind (List Char))
deriving DecidableEq, Repr

/-- `failOnce(error)`: settle the invocation as rejected; consumes the
sticky manual-abort flag, clears the collector and returns to READY.
A no-op when already settled. -/
def failOnce (s : PromptSystem) (e : PromptErrorKind) : PromptSystem :=
  if s.isSettled then s
  else
    { rt := { s.rt with
                manualAbortRequested := false
                activePromptCollector := none
                state := AcpState.READY }
      isSettled := true
      settled := some (.error e) }

/-- `resolveOnce(value)`: settle the invocation as resolved; same state
effects as `failOnce`. -/
def resolveOnce (s : PromptSystem) (v : List Char) : PromptSystem :=
  if s.isSettled then s
  else
    { rt := { s.rt with
                manualAbortRequested := false
                activePromptCollector := none
                state := AcpState.READY }
      isSettled := true
      settled := some (.ok v) }

/-- The literal fallback string returned when the accumulated response is
empty. -/
def noResponseFallback : List Char := "No response received.".toList

/-- The `.then` callback of the protocol `prompt` call: a `cancelled`
result with empty accumulated output fails (manual-abort variant when the
sticky flag is set), everything else resolves with the accumulated text
or the fallback string. -/
def onPromptResolved (s : PromptSystem) (stopReason : Option StopReason)
    (fullResponse : List Char) : PromptSystem :=
  if stopReason = some StopReason.cancelled ∧ fullResponse = [] then
    failOnce s
      (if s.rt.manualAbortRequested then PromptErrorKind.abortedByUser
       else PromptErrorKind.cancelledExternally)
  else
    resolveOnce s (if fullResponse = [] then noResponseFallback else fullResponse)

/-- The synchronous effect of `shutdownAcpRuntime` when the process has
already exited (no grace-period wait is taken): SHUTTING_DOWN, clear all
session fields, then IDLE. -/
def shutdownSync (s : RuntimeState) : RuntimeState :=
  { state := AcpState.IDLE
    agentProcess := none
    acpConnection := none
    acpSessionId := none
    sessionReadyPromise := none
    activePromptCollector := none
    manualAbortRequested := s.manualAbortRequested
    prewarmScheduled := s.prewarmScheduled }

/-- The process `close` event handler: `setState(IDLE)` followed by
`resetAcpRuntime()` (= synchronous shutdown, because the process has
exited, plus a prewarm trigger). -/
def closeHandler (s : PromptSystem) : PromptSystem :=
  { s with rt := { shutdownSync s.rt with prewarmScheduled := true } }

/-- The `.catch` callback of the protocol `prompt` call: fires when the
connection breaks (for example because the agent process exited). -/
def promptRejectHandler (s : PromptSystem) : PromptSystem :=
  failOnce s PromptErrorKind.promptFailed

/-! ## Message queue (src/messaging/messageQueue.ts) -/

/-- A queued message: monotonic request id plus opaque context. -/
structure QueueItem (α : Type) where
  requestId : Nat
  messageContext : α
deriving DecidableEq, Repr

/-- Observable queue events: an item's processing function is invoked
(`start`), or its completion handle settles (`settle` — `Except.ok` for
resolve, `Except.error` for reject). -/
inductive QueueEvent (ε : Type) where
  | start (requestId : Nat)
  | settle (requestId : Nat) (outcome : Except ε Unit)
deriving DecidableEq, Repr

/-- The closure state of `createMessageQueueProcessor`. -/
structure QueueState (α : Type) where
  messageQueue : List (QueueItem α)
  isQueueProcessing : Bool
  messageSequence : Nat
deriving Repr

/-- The initial (empty) queue state. -/
def emptyQueue (α : Type) : QueueState α := ⟨[], false, 0⟩

/-- `enqueueMessage(messageContext)`: assign the next monotonic request
id and append the item. -/
def enqueueMessage (s : QueueState α) (ctx : α) : QueueState α :=
  let requestId := s.messageSequence + 1
  { messageQueue := s.messageQueue ++ [⟨requestId, ctx⟩]
    isQueueProcessing := s.isQueueProcessing
    messageSequence := requestId }

/-- The `processQueue` while-loop: shift one item at a time, await its
processing function, resolve or reject only that item's completion
handle, and continue with the rest.  `f` returns `Except.error` when the
processing function throws. -/
def drainLoop (f : α → Nat → Except ε Unit) : List (QueueItem α) → List (QueueEvent ε)
  | [] => []
  | item :: rest =>
    QueueEvent.start item.requestId ::
    QueueEvent.settle item.requestId (f item.messageContext item.requestId) ::
    drainLoop f rest

/-- `processQueue()`: a second entry while a drain loop is running
returns immediately (re-entrancy guard); otherwise the loop drains the
whole queue. -/
def processQueue (f : α → Nat → Except ε Unit) (s : QueueState α) :
    List (QueueEvent ε) × QueueState α :=
  if s.isQueueProcessing then ([], s)
  else (drainLoop f s.messageQueue,
        { s with messageQueue := [], isQueueProcessing := false })

/-! ## Fixed example states -/

/-- A runtime state with a prompt in flight. -/
def promptingState : RuntimeState :=
  { state := AcpState.PROMPTING
    agentProcess := some ⟨false, none⟩
    acpConnection := some 1
    acpSessionId := some 1
    sessionReadyPromise := none
    activePromptCollector := some 1
    manualAbortRequested := false
    prewarmScheduled := false }

/-- A runtime state in teardown. -/
def shuttingDownState : RuntimeState :=
  { state := AcpState.SHUTTING_DOWN
    agentProcess := none
    acpConnection := none
    acpSessionId := none
    sessionReadyPromise := none
    activePromptCollector := none
    manualAbortRequested := false
    prewarmScheduled := false }

/-- A cold runtime state (fresh manager). -/
def idleState : RuntimeState :=
  { state := AcpState.IDLE
    agentProcess := none
    acpConnection := none
    acpSessionId := none
    sessionReadyPromise := none
    activePromptCollector := none
    manualAbortRequested := false
    prewarmScheduled := false }

/-- A `PromptSystem` with an unsettled in-flight prompt. -/
def promptingSystem : PromptSystem :=
  { rt := promptingState, isSettled := false, settled := none }

/-- The fenced-code example from the spec's testable properties. -/
def exJsFence : List Char := "```js\nconsole.log(1);\n```".toList

/-- An input whose total triple-backtick count is odd (an unclosed
fence). -/
def exUnbalanced : List Char := "```x aaaa bbbb cccc".toList

/-- A markdown link longer than the split limit. -/
def exLongLink : List Char := "[aaaaaaaa](bbbbbbbb)".toList

/-- A character that cannot open a markdown construct or an escape at or
before an intact link: not a backtick, backslash, opening bracket or
bang. -/
def isLinkPreChar (c : Char) : Bool :=
  !(c = btick || c = '\\' || c = '[' || c = '!')

/-- An intact markdown link `[a](b)`. -/
def mkLink (a b : List Char) : List Char :=
  '[' :: a ++ ']' :: '(' :: b ++ [')']

/-- Example message contexts for the queue (arbitrary payloads). -/
def exCtxs : List Nat := [10, 20, 30]

/-- An example processing function that fails on request id 2 only. -/
def exProc : Nat → Nat → Except Nat Unit :=
  fun _ i => if i = 2 then Except.error 2 else Except.ok ()

/-- A queue state whose drain loop is already running. -/
def busyQueue : QueueState Nat := ⟨[], true, 5⟩

/-! ## Claim C1 -/

/-- Claim C1, counterexample: a `runAcpPrompt` call issued while
SHUTTING_DOWN is rejected with the shutting-down error, which is not the
concurrent-prompt error the claim names (the state is indeed
unchanged). -/
theorem C1_counterexample :
    (runAcpPromptStart shuttingDownState 1 2 3).1 = PromptStartOutcome.rejectedShuttingDown ∧
    PromptStartOutcome.rejectedShuttingDown ≠ PromptStartOutcome.rejectedConcurrent ∧
    (runAcpPromptStart shuttingDownState 1 2 3).2 = shuttingDownState := by
  refine ⟨rfl, by decide, rfl⟩

/-- Claim C1 (amended): a `runAcpPrompt` call issued while PROMPTING is
rejected with the concurrent-prompt error, and one issued while
SHUTTING_DOWN with the shutting-down error; in both cases the rejection
happens before any mutation, so the state — including session id,
connection, process handle and the in-flight collector — is returned
unchanged, and only the first prompt in flight proceeds. -/
theorem runAcpPrompt_guard_rejects_without_state_change
    (s : RuntimeState) (fp fc fi : Nat) :
    (s.state = AcpState.PROMPTING →
      runAcpPromptStart s fp fc fi = (PromptStartOutcome.rejectedConcurrent, s)) ∧
    (s.state = AcpState.SHUTTING_DOWN →
      runAcpPromptStart s fp fc fi = (PromptStartOutcome.rejectedShuttingDown, s)) := by
  constructor
  · intro h
    simp [runAcpPromptStart, h]
  · intro h
    simp [runAcpPromptStart, h]

/-- Witness for the C1 theorem at a concrete PROMPTING state. -/
theorem runAcpPrompt_guard_rejects_without_state_change_witness :
    runAcpPromptStart promptingState 1 2 3 =
      (PromptStartOutcome.rejectedConcurrent, promptingState) :=
  (runAcpPrompt_guard_rejects_without_state_change promptingState 1 2 3).1 rfl

/-! ## Claim C2 -/

/-- While STARTING with an in-flight handshake promise, every further
`ensureAcpSession` call awaits that same promise and leaves the state
unchanged. -/
theorem runEnsureCalls_starting (m : Nat) (s : RuntimeState) (p fresh : Nat)
    (hs : s.state = AcpState.STARTING) (hp : s.sessionReadyPromise = some p) :
    runEnsureCalls m s fresh =
      (List.replicate m (EnsureOutcome.awaitInFlight p), s) := by
  induction m generalizing fresh with
  | zero => rfl
  | succ k ih =>
    have hh : hasHealthyAcpRuntime s = false := by
      simp [hasHealthyAcpRuntime, hs]
    simp [runEnsureCalls, ensureAcpSessionStep, hh, hp, ih, List.replicate_succ]

/-- Claim C2: `ensureAcpSession` is idempotent and single-flight.  On a
healthy session it returns immediately with the state unchanged; when a
handshake promise is in flight every caller awaits that same promise with
no state change; and N ≥ 1 concurrent callers starting from IDLE produce
exactly one `started` outcome (one spawn + handshake), all others
awaiting the promise the first caller installed. -/
theorem ensureAcpSession_idempotent_single_flight
    (s : RuntimeState) (n fp fc fresh p : Nat) :
    (hasHealthyAcpRuntime s = true →
      ensureAcpSessionStep s fp fc = (EnsureOutcome.alreadyHealthy, s)) ∧
    (hasHealthyAcpRuntime s = false → s.sessionReadyPromise = some p →
      ensureAcpSessionStep s fp fc = (EnsureOutcome.awaitInFlight p, s)) ∧
    (s.state = AcpState.IDLE → s.sessionReadyPromise = none → 1 ≤ n →
      (runEnsureCalls n s fresh).1 =
        EnsureOutcome.started fresh ::
          List.replicate (n - 1) (EnsureOutcome.awaitInFlight fresh) ∧
      ((runEnsureCalls n s fresh).1.countP isSpawn) = 1) := by
  refine ⟨fun hh => by simp [ensureAcpSessionStep, hh], fun hh hp => by
    simp [ensureAcpSessionStep, hh, hp], fun hs hp hn => ?_⟩
  obtain ⟨m, rfl⟩ : ∃ m, n = m + 1 := ⟨n - 1, (Nat.succ_pred_eq_of_pos hn).symm⟩
  have hh : hasHealthyAcpRuntime s = false := by
    simp [hasHealthyAcpRuntime, hs]
  have hfirst :
      ensureAcpSessionStep s fresh fresh =
        (EnsureOutcome.started fresh,
         { s with
            state := AcpState.STARTING
            sessionReadyPromise := some fresh
            agentProcess := some ⟨false, none⟩
            acpConnection := some fresh }) := by
    simp [ensureAcpSessionStep, hh, hp, hs]
  have hrest := runEnsureCalls_starting m
      { s with
          state := AcpState.STARTING
          sessionReadyPromise := some fresh
          agentProcess := some ⟨false, none⟩
          acpConnection := some fresh } fresh (fresh + 1) rfl rfl
  constructor
  · simp [runEnsureCalls, hfirst, hrest]
  · simp [runEnsureCalls, hfirst, hrest, isSpawn, List.countP_replicate]

/-- Witness for the C2 theorem: three concurrent callers from the cold
state produce exactly one spawn. -/
theorem ensureAcpSession_idempotent_single_flight_witness :
    (runEnsureCalls 3 idleState 7).1 =
      EnsureOutcome.started 7 ::
        List.replicate 2 (EnsureOutcome.awaitInFlight 7) ∧
    ((runEnsureCalls 3 idleState 7).1.countP isSpawn) = 1 :=
  (ensureAcpSession_idempotent_single_flight idleState 3 0 0 7 0).2.2 rfl rfl
    (by decide)

/-! ## Claim C3 -/

/-- Claim C3: when the protocol prompt call resolves with stop reason
`cancelled` and empty accumulated text, the invocation is rejected — with
the manual-abort variant exactly when the sticky flag was set, and the
flag is consumed; in every other case (including `cancelled` with
non-empty text) it resolves with the accumulated text, or the literal
fallback when that text is empty, and the state returns to READY.
Settling is once-only: a second resolution is a no-op. -/
theorem onPromptResolved_settles_correctly
    (s : PromptSystem) (stop : Option StopReason) (resp : List Char)
    (hset : s.isSettled = false) :
    ((stop = some StopReason.cancelled ∧ resp = []) →
      (onPromptResolved s stop resp).settled =
        some (Except.error
          (if s.rt.manualAbortRequested then PromptErrorKind.abortedByUser
           else PromptErrorKind.cancelledExternally)) ∧
      (onPromptResolved s stop resp).rt.manualAbortRequested = false) ∧
    (¬(stop = some StopReason.cancelled ∧ resp = []) →
      (onPromptResolved s stop resp).settled =
        some (Except.ok (if resp = [] then noResponseFallback else resp)) ∧
      (onPromptResolved s stop resp).rt.state = AcpState.READY ∧
      (onPromptResolved s stop resp).rt.manualAbortRequested = false) ∧
    (∀ stop2 resp2,
      onPromptResolved (onPromptResolved s stop resp) stop2 resp2 =
        onPromptResolved s stop resp) := by
  refine ⟨fun hc => ?_, fun hc => ?_, fun stop2 resp2 => ?_⟩
  · simp [onPromptResolved, hc, failOnce, hset]
  · simp [onPromptResolved, hc, resolveOnce, hset]
  · by_cases hc : stop = some StopReason.cancelled ∧ resp = [] <;>
      by_cases hc2 : stop2 = some StopReason.cancelled ∧ resp2 = [] <;>
        simp [onPromptResolved, hc, hc2, failOnce, resolveOnce, hset]

/-- Witness for the C3 theorem: an unsettled invocation with the sticky
manual-abort flag set, resolved as `cancelled` with empty output, is
rejected with the manual-abort variant and the flag is consumed. -/
theorem onPromptResolved_settles_correctly_witness :
    (onPromptResolved
        { rt := { promptingState with manualAbortRequested := true }
          isSettled := false
          settled := none }
        (some StopReason.cancelled) []).settled =
      some (Except.error
        (if ({ promptingState with
                manualAbortRequested := true } : RuntimeState).manualAbortRequested
         then PromptErrorKind.abortedByUser
         else PromptErrorKind.cancelledExternally)) ∧
    (onPromptResolved
        { rt := { promptingState with manualAbortRequested := true }
          isSettled := false
          settled := none }
        (some StopReason.cancelled) []).rt.manualAbortRequested = false :=
  (onPromptResolved_settles_correctly
      { rt := { promptingState with manualAbortRequested := true }
        isSettled := false
        settled := none }
      (some StopReason.cancelled) [] rfl).1 ⟨rfl, rfl⟩

/-! ## Claim C7 -/

/-- Claim C7, counterexample: if the process `close` handler (reset to
IDLE plus prewarm trigger) runs before the pending prompt promise's
rejection callback, the later `failOnce` moves the state to READY, so
after all callbacks have run the manager is not IDLE, contradicting the
claim. -/
theorem C7_counterexample :
    (promptRejectHandler (closeHandler promptingSystem)).settled =
      some (Except.error PromptErrorKind.promptFailed) ∧
    (promptRejectHandler (closeHandler promptingSystem)).rt.state = AcpState.READY ∧
    AcpState.READY ≠ AcpState.IDLE := by
  refine ⟨rfl, rfl, by decide⟩

/-- Claim C7 (amended): a process exit while PROMPTING always settles the
in-flight invocation as an error (in either callback order), but the
final state depends on the order the two callbacks run: when the prompt
promise's rejection is delivered first the manager ends in IDLE (with a
prewarm triggered), while if the close handler's reset runs first the
subsequent `failOnce` leaves the manager in READY. -/
theorem processClose_whilePrompting_settles_error
    (s : PromptSystem) (_hst : s.rt.state = AcpState.PROMPTING)
    (hset : s.isSettled = false) :
    ((closeHandler (promptRejectHandler s)).settled =
        some (Except.error PromptErrorKind.promptFailed) ∧
      (closeHandler (promptRejectHandler s)).rt.state = AcpState.IDLE ∧
      (closeHandler (promptRejectHandler s)).rt.prewarmScheduled = true) ∧
    ((promptRejectHandler (closeHandler s)).settled =
        some (Except.error PromptErrorKind.promptFailed) ∧
      (promptRejectHandler (closeHandler s)).rt.state = AcpState.READY) := by
  simp [closeHandler, promptRejectHandler, failOnce, shutdownSync, hset]

/-- Witness for the C7 theorem at the concrete in-flight system state. -/
theorem processClose_whilePrompting_settles_error_witness :
    ((closeHandler (promptRejectHandler promptingSystem)).settled =
        some (Except.error PromptErrorKind.promptFailed) ∧
      (closeHandler (promptRejectHandler promptingSystem)).rt.state = AcpState.IDLE ∧
      (closeHandler (promptRejectHandler promptingSystem)).rt.prewarmScheduled = true) ∧
    ((promptRejectHandler (closeHandler promptingSystem)).settled =
        some (Except.error PromptErrorKind.promptFailed) ∧
      (promptRejectHandler (closeHandler promptingSystem)).rt.state = AcpState.READY) :=
  processClose_whilePrompting_settles_error promptingSystem rfl rfl

/-! ## Claim C6 -/

/-- Enqueueing a list of contexts appends items with consecutive
monotonically increasing request ids. -/
theorem foldl_enqueueMessage_spec {α : Type} (ctxs : List α) (s : QueueState α) :
    (ctxs.foldl enqueueMessage s).messageQueue =
      s.messageQueue ++
        ((List.range' (s.messageSequence + 1) ctxs.length).zip ctxs).map
          (fun ic => ⟨ic.1, ic.2⟩) ∧
    (ctxs.foldl enqueueMessage s).messageSequence =
      s.messageSequence + ctxs.length ∧
    (ctxs.foldl enqueueMessage s).isQueueProcessing = s.isQueueProcessing := by
  induction ctxs generalizing s with
  | nil => simp
  | cons c t ih =>
    obtain ⟨h1, h2, h3⟩ := ih (enqueueMessage s c)
    refine ⟨?_, ?_, ?_⟩
    · rw [List.foldl_cons, h1]
      simp [enqueueMessage, List.range'_succ]
    · rw [List.foldl_cons, h2]
      simp [enqueueMessage]
      omega
    · rw [List.foldl_cons, h3]
      simp [enqueueMessage]

/-- The drain loop's trace over any item list: for each item in queue
order, the processing function is started only after the previous item's
completion handle has settled, and each item settles with exactly its own
processing outcome. -/
theorem drainLoop_trace {α ε : Type} (f : α → Nat → Except ε Unit)
    (items : List (QueueItem α)) :
    drainLoop f items =
      (items.map (fun it =>
        [QueueEvent.start it.requestId,
         QueueEvent.settle it.requestId (f it.messageContext it.requestId)])).flatten := by
  induction items with
  | nil => rfl
  | cons it rest ih => simp [drainLoop, ih]

/-- Claim C6: the message queue assigns monotonically increasing request
ids 1..n in arrival order; draining processes items strictly in that
order, one at a time — each item's completion handle settles before the
next item starts, regardless of what its processing function does
internally, and a processing failure (`f` returning `Except.error`)
rejects only that item's handle while the loop continues; and a drain is
never entered re-entrantly while one is already running. -/
theorem messageQueue_fifo_single_flight {α ε : Type}
    (ctxs : List α) (f : α → Nat → Except ε Unit) :
    ((ctxs.foldl enqueueMessage (emptyQueue α)).messageQueue.map
        (fun it => it.requestId) = List.range' 1 ctxs.length) ∧
    ((processQueue f (ctxs.foldl enqueueMessage (emptyQueue α))).1 =
      (((List.range' 1 ctxs.length).zip ctxs).map (fun ic =>
        [QueueEvent.start ic.1, QueueEvent.settle ic.1 (f ic.2 ic.1)])).flatten) ∧
    (∀ s : QueueState α, s.isQueueProcessing = true →
      processQueue f s = (([] : List (QueueEvent ε)), s)) := by
  obtain ⟨h1, _h2, h3⟩ := foldl_enqueueMessage_spec ctxs (emptyQueue α)
  have hlen : (List.range' 1 ctxs.length).length ≤ ctxs.length := by
    simp
  refine ⟨?_, ?_, fun s hs => by simp [processQueue, hs]⟩
  · rw [h1]
    simp only [emptyQueue, List.nil_append, List.map_map]
    exact List.map_fst_zip (List.range' 1 ctxs.length) ctxs hlen
  · have hguard : (ctxs.foldl enqueueMessage (emptyQueue α)).isQueueProcessing = false := by
      rw [h3]; rfl
    simp only [processQueue, hguard, Bool.false_eq_true, if_false]
    rw [h1, drainLoop_trace]
    simp only [emptyQueue, List.nil_append, List.map_map]
    rfl

/-! ## Chunking lemmas -/

theorem trimEndL_length_le (s : List Char) : (trimEndL s).length ≤ s.length := by
  calc (trimEndL s).length = (s.reverse.dropWhile isJsWs).length := by
        simp [trimEndL]
    _ ≤ s.reverse.length := (List.dropWhile_suffix _).sublist.length_le
    _ = s.length := List.length_reverse s

theorem trimStartL_length_le (s : List Char) : (trimStartL s).length ≤ s.length :=
  (List.dropWhile_suffix _).sublist.length_le

theorem matchesAt_bound {pat s : List Char} {i : Nat}
    (h : matchesAt pat s i = true) (hne : pat ≠ []) : i + pat.length ≤ s.length := by
  unfold matchesAt at h
  rw [decide_eq_true_eq] at h
  have hlen := congrArg List.length h
  simp only [List.length_take, List.length_drop] at hlen
  have hpos : 0 < pat.length := List.length_pos.mpr hne
  omega

theorem jsLastIndexOf_matches {s pat : List Char} {p : Nat}
    (h : jsLastIndexOf s pat = some p) : matchesAt pat s p = true := by
  unfold jsLastIndexOf at h
  have hmem : p ∈ (List.range (s.length + 1)).filter (matchesAt pat s) := by
    obtain ⟨hne, heq⟩ := List.mem_getLast?_eq_getLast (Option.mem_def.mpr h)
    rw [heq]
    exact List.getLast_mem hne
  exact (List.mem_filter.mp hmem).2

theorem jsLastIndexOf_bound {s pat : List Char} {p : Nat}
    (h : jsLastIndexOf s pat = some p) (hne : pat ≠ []) : p + pat.length ≤ s.length :=
  matchesAt_bound (jsLastIndexOf_matches h) hne

theorem preferredSplitIndex_le (subText : List Char) (cut : Nat)
    (h : subText.length ≤ cut) : preferredSplitIndex subText cut ≤ cut := by
  have hsp : ∀ q : Nat, jsLastIndexOf subText [' '] = some q → q ≤ cut := by
    intro q hq
    have := jsLastIndexOf_bound hq (by simp)
    simp at this; omega
  have hln : ∀ q : Nat, jsLastIndexOf subText ['\n'] = some q → q ≤ cut := by
    intro q hq
    have := jsLastIndexOf_bound hq (by simp)
    simp at this; omega
  have hpr : ∀ q : Nat, jsLastIndexOf subText ['\n', '\n'] = some q → q ≤ cut := by
    intro q hq
    have := jsLastIndexOf_bound hq (by simp)
    simp at this; omega
  unfold preferredSplitIndex
  cases hp : jsLastIndexOf subText ['\n', '\n'] with
  | some p =>
    cases hl : jsLastIndexOf subText ['\n'] with
    | some l =>
      cases hs : jsLastIndexOf subText [' '] with
      | some q =>
        simp only []
        split_ifs <;> first | exact hpr p hp | exact hln l hl | exact hsp q hs | omega
      | none =>
        simp only []
        split_ifs <;> first | exact hpr p hp | exact hln l hl | omega
    | none =>
      cases hs : jsLastIndexOf subText [' '] with
      | some q =>
        simp only []
        split_ifs <;> first | exact hpr p hp | exact hsp q hs | omega
      | none =>
        simp only []
        split_ifs <;> first | exact hpr p hp | omega
  | none =>
    cases hl : jsLastIndexOf subText ['\n'] with
    | some l =>
      cases hs : jsLastIndexOf subText [' '] with
      | some q =>
        simp only []
        split_ifs <;> first | exact hln l hl | exact hsp q hs | omega
      | none =>
        simp only []
        split_ifs <;> first | exact hln l hl | omega
    | none =>
      cases hs : jsLastIndexOf subText [' '] with
      | some q =>
        simp only []
        split_ifs <;> first | exact hsp q hs | omega
      | none => exact le_rfl

theorem preferredSplitIndex_pos (subText : List Char) (cut : Nat)
    (h : 1 ≤ cut) : 1 ≤ preferredSplitIndex subText cut := by
  unfold preferredSplitIndex
  cases hp : jsLastIndexOf subText ['\n', '\n'] <;>
    cases hl : jsLastIndexOf subText ['\n'] <;>
      cases hs : jsLastIndexOf subText [' '] <;>
        simp only [] <;> first | (split_ifs <;> omega) | omega

theorem bracketScan_inl_le {text : List Char} {lim start j r : Nat}
    (hs : start < lim) (h : bracketScan text lim start j = Sum.inl r) : r ≤ lim := by
  unfold bracketScan at h
  split_ifs at h <;>
    first
    | exact Sum.noConfusion h
    | (simp only [Sum.inl.injEq] at h; omega)

theorem safeStep_inl_le {text : List Char} {lim i r : Nat}
    (hi : i < lim) (h : safeStep text lim i = Sum.inl r) : r ≤ lim := by
  unfold safeStep at h
  by_cases h1 : text.getD i ' ' = '\\' ∧ i + 1 < text.length
  · rw [if_pos h1] at h
    cases h
  · rw [if_neg h1] at h
    by_cases h2 : text.getD i ' ' = btick
    · rw [if_pos h2] at h
      by_cases h3 : matchesAt tbt text i = true
      · rw [if_pos h3] at h
        cases hidx : jsIndexOfFrom text tbt
            (findIdxFrom (fun c => c = '\n') text (i + 3)) with
        | none =>
          rw [hidx] at h
          rw [show tbtSkip lim none = Sum.inl lim from rfl] at h
          simp only [Sum.inl.injEq] at h
          omega
        | some closeIndex =>
          rw [hidx] at h
          rw [show tbtSkip lim (some closeIndex) =
            (if lim ≤ closeIndex then Sum.inl lim else Sum.inr (closeIndex + 3))
            from rfl] at h
          by_cases h7 : lim ≤ closeIndex
          · rw [if_pos h7] at h
            simp only [Sum.inl.injEq] at h
            omega
          · rw [if_neg h7] at h
            cases h
      · rw [if_neg h3] at h
        by_cases h4 : findIdxFrom (fun c => c = btick) text (i + 1) < lim
        · rw [if_pos h4] at h
          cases h
        · rw [if_neg h4] at h
          injection h with h6
          omega
    · rw [if_neg h2] at h
      by_cases h5 : (text.getD i ' ' = '!' ∧ text.getD (i + 1) ' ' = '[' ∧
          i + 1 < text.length) ∨ text.getD i ' ' = '['
      · rw [if_pos h5] at h
        exact bracketScan_inl_le hi h
      · rw [if_neg h5] at h
        cases h

theorem safeScan_le (text : List Char) (lim : Nat) :
    ∀ fuel i, safeScan text lim fuel i ≤ lim := by
  intro fuel
  induction fuel with
  | zero => intro i; simp [safeScan]
  | succ n ih =>
    intro i
    rw [safeScan]
    split_ifs with hi
    · cases hstep : safeStep text lim i with
      | inl r => simp only [hstep]; exact safeStep_inl_le hi hstep
      | inr j => simp only [hstep]; exact ih j
    · exact le_refl lim

theorem getSafeMarkdownSplitPoint_le (text : List Char) (sp : Nat) :
    getSafeMarkdownSplitPoint text sp ≤ min sp text.length :=
  safeScan_le text (min sp text.length) (min sp text.length + 1) 0

theorem finalSplitPoint_le (remaining : List Char) (limit : Nat) :
    finalSplitPoint remaining limit ≤ limit := by
  have h0 : preferredSplitIndex (remaining.take limit) limit ≤ limit := by
    apply preferredSplitIndex_le
    simp [List.length_take]
  have h1 : backslashAdjust remaining
      (preferredSplitIndex (remaining.take limit) limit) ≤ limit := by
    unfold backslashAdjust
    split_ifs <;> omega
  have h2 := getSafeMarkdownSplitPoint_le remaining
    (backslashAdjust remaining (preferredSplitIndex (remaining.take limit) limit))
  unfold finalSplitPoint
  split_ifs with hz
  · exact le_rfl
  · omega

theorem finalSplitPoint_pos (remaining : List Char) (limit : Nat)
    (h : 1 ≤ limit) : 1 ≤ finalSplitPoint remaining limit := by
  unfold finalSplitPoint
  split_ifs with h2
  · exact h
  · omega

theorem countTBT_cons3 (a b c : Char) (rest : List Char) :
    countTBT (a :: b :: c :: rest) =
      if a = btick ∧ b = btick ∧ c = btick then countTBT rest + 1
      else countTBT (b :: c :: rest) := rfl

theorem countTBT_append_cons (c : Char) (hc : c ≠ btick) :
    ∀ (l r : List Char), countTBT (l ++ c :: r) = countTBT l + countTBT (c :: r)
  | [], r => by simp [countTBT]
  | [x], r => by
    cases r with
    | nil => rfl
    | cons hd tl =>
      rw [List.cons_append, List.nil_append, countTBT_cons3,
        if_neg (fun hyp => hc hyp.2.1)]
      show countTBT (c :: hd :: tl) = countTBT [x] + countTBT (c :: hd :: tl)
      rw [show countTBT [x] = 0 from rfl, Nat.zero_add]
  | [x, y], r => by
    cases r with
    | nil =>
      rw [List.cons_append, List.cons_append, List.nil_append, countTBT_cons3,
        if_neg (fun hyp => hc hyp.2.2)]
      rfl
    | cons hd tl =>
      have h2 := countTBT_append_cons c hc [y] (hd :: tl)
      simp only [List.cons_append, List.nil_append] at h2 ⊢
      rw [countTBT_cons3, if_neg (fun hyp => hc hyp.2.2), h2]
      rfl
  | x :: y :: z :: t, r => by
    have h2 := countTBT_append_cons c hc t r
    have h3 := countTBT_append_cons c hc (y :: z :: t) r
    simp only [List.cons_append] at h3 ⊢
    by_cases hxyz : x = btick ∧ y = btick ∧ z = btick
    · rw [countTBT_cons3, if_pos hxyz, h2, countTBT_cons3, if_pos hxyz]
      omega
    · rw [countTBT_cons3, if_neg hxyz, h3, countTBT_cons3, if_neg hxyz]

theorem countTBT_fence_close (l : List Char) :
    countTBT (l ++ '\n' :: tbt) = countTBT l + 1 := by
  have h1 : countTBT ('\n' :: tbt) = 1 := by decide
  rw [countTBT_append_cons '\n' (by decide) l tbt, h1]

theorem splitStep_fst_length_le (remaining : List Char) (limit : Nat) :
    (splitStep remaining limit).1.length ≤ limit + 4 := by
  have hsp := finalSplitPoint_le remaining limit
  have hch : (trimEndL (remaining.take (finalSplitPoint remaining limit))).length ≤ limit := by
    calc (trimEndL (remaining.take (finalSplitPoint remaining limit))).length
        ≤ (remaining.take (finalSplitPoint remaining limit)).length := trimEndL_length_le _
      _ ≤ finalSplitPoint remaining limit := by simp [List.length_take]
      _ ≤ limit := hsp
  have h4 : (trimEndL (remaining.take (finalSplitPoint remaining limit)) ++
      '\n' :: tbt).length =
      (trimEndL (remaining.take (finalSplitPoint remaining limit))).length + 4 := by
    simp [tbt]
  unfold splitStep splitStepFence
  split_ifs with h1 h2
  · show (trimEndL (remaining.take (finalSplitPoint remaining limit)) ++
        '\n' :: tbt).length ≤ limit + 4
    omega
  · show (trimEndL (remaining.take (finalSplitPoint remaining limit)) ++
        '\n' :: tbt).length ≤ limit + 4
    omega
  · show (trimEndL (remaining.take (finalSplitPoint remaining limit))).length ≤ limit + 4
    omega

theorem splitStep_fst_even (remaining : List Char) (limit : Nat) :
    countTBT (splitStep remaining limit).1 % 2 = 0 := by
  unfold splitStep splitStepFence
  split_ifs with h1 h2
  · show countTBT (trimEndL (remaining.take (finalSplitPoint remaining limit)) ++
        '\n' :: tbt) % 2 = 0
    rw [countTBT_fence_close]
    omega
  · show countTBT (trimEndL (remaining.take (finalSplitPoint remaining limit)) ++
        '\n' :: tbt) % 2 = 0
    rw [countTBT_fence_close]
    omega
  · show countTBT (trimEndL (remaining.take (finalSplitPoint remaining limit))) % 2 = 0
    rw [not_ne_iff] at h1
    exact h1

theorem splitStep_snd_length_lt (remaining : List Char) (limit : Nat)
    (hl : 1 ≤ limit) (hr : 1 ≤ remaining.length) :
    (splitStep remaining limit).2.length < remaining.length := by
  have hpos := finalSplitPoint_pos remaining limit hl
  have hdrop : (trimStartL (remaining.drop (finalSplitPoint remaining limit))).length
      < remaining.length := by
    have h1 := trimStartL_length_le (remaining.drop (finalSplitPoint remaining limit))
    simp only [List.length_drop] at h1
    omega
  unfold splitStep splitStepFence
  split_ifs with h1 h2
  · exact hdrop
  · exact Nat.lt_of_not_le h2
  · exact hdrop

/-- Fuel does not matter once it covers the remaining length: the
splitting loop terminates within `remaining.length` iterations. -/
theorem splitChunks_fuel_congr (limit maxLength : Nat) (hl : 1 ≤ limit) :
    ∀ n remaining fuel fuel', remaining.length ≤ n →
      remaining.length ≤ fuel → remaining.length ≤ fuel' →
      splitChunks limit maxLength fuel remaining =
        splitChunks limit maxLength fuel' remaining := by
  intro n
  induction n with
  | zero =>
    intro remaining fuel fuel' hn _ _
    have : remaining = [] := List.length_eq_zero.mp (Nat.le_zero.mp hn)
    subst this
    cases fuel <;> cases fuel' <;> rfl
  | succ m ih =>
    intro remaining fuel fuel' hn hf hf'
    cases remaining with
    | nil => cases fuel <;> cases fuel' <;> rfl
    | cons a t =>
      have hlen : 1 ≤ (a :: t).length := by simp
      obtain ⟨f, rfl⟩ : ∃ f, fuel = f + 1 := ⟨fuel - 1, by omega⟩
      obtain ⟨f', rfl⟩ : ∃ f', fuel' = f' + 1 := ⟨fuel' - 1, by omega⟩
      simp only [splitChunks]
      split_ifs with hle
      · rfl
      · have hstep := splitStep_snd_length_lt (a :: t) limit hl hlen
        rw [ih (splitStep (a :: t) limit).2 f f' (by omega) (by omega) (by omega)]

theorem splitChunks_length_le (limit maxLength : Nat)
    (hl : 1 ≤ limit) (hb : limit + 4 ≤ maxLength) :
    ∀ fuel remaining, remaining.length ≤ fuel →
      ∀ c ∈ splitChunks limit maxLength fuel remaining, c.length ≤ maxLength := by
  intro fuel
  induction fuel with
  | zero =>
    intro remaining hr c hc
    have : remaining = [] := List.length_eq_zero.mp (Nat.le_zero.mp hr)
    subst this
    simp [splitChunks] at hc
  | succ n ih =>
    intro remaining hr c hc
    cases remaining with
    | nil => simp [splitChunks] at hc
    | cons a t =>
      -- `hl` is the hypothesis `1 ≤ limit` of the enclosing theorem
      simp only [splitChunks] at hc
      split_ifs at hc with hle
      · rw [List.mem_singleton] at hc
        subst hc
        exact hle
      · have hstep := splitStep_snd_length_lt (a :: t) limit hl (by simp)
        rw [List.mem_cons] at hc
        rcases hc with hc | hc
        · subst hc
          have := splitStep_fst_length_le (a :: t) limit
          omega
        · exact ih (splitStep (a :: t) limit).2 (by omega) c hc

theorem splitChunks_dropLast_even (limit maxLength : Nat) :
    ∀ fuel remaining, ∀ c ∈ (splitChunks limit maxLength fuel remaining).dropLast,
      countTBT c % 2 = 0 := by
  intro fuel
  induction fuel with
  | zero =>
    intro remaining c hc
    cases remaining <;> simp [splitChunks] at hc
  | succ n ih =>
    intro remaining c hc
    cases remaining with
    | nil => simp [splitChunks] at hc
    | cons a t =>
      simp only [splitChunks] at hc
      split_ifs at hc with hle
      · simp at hc
      · cases hrec : splitChunks limit maxLength n (splitStep (a :: t) limit).2 with
        | nil => rw [hrec] at hc; simp at hc
        | cons b bt =>
          rw [hrec, List.dropLast_cons₂, List.mem_cons] at hc
          rcases hc with hc | hc
          · subst hc
            exact splitStep_fst_even (a :: t) limit
          · have h5 := ih (splitStep (a :: t) limit).2 c
            rw [hrec] at h5
            exact h5 hc

/-! ## Claim C9 -/

/-- Claim C9: every iteration of the `splitIntoSmartChunks` loop makes
strictly positive progress — the new remaining text is strictly shorter,
in the code-fence re-open case because a reopen that would not shrink the
remaining text is abandoned — and consequently the loop's result is
independent of any fuel bound covering `remaining.length`, i.e. the
splitter terminates within `text.length` iterations on every input. -/
theorem splitIntoSmartChunks_terminates (remaining : List Char) (maxLength : Nat)
    (h : 1 ≤ remaining.length) :
    (splitStep remaining (splitLimit maxLength)).2.length < remaining.length ∧
    (∀ fuel, remaining.length ≤ fuel →
      splitChunks (splitLimit maxLength) maxLength fuel remaining =
        splitChunks (splitLimit maxLength) maxLength remaining.length remaining) := by
  constructor
  · exact splitStep_snd_length_lt remaining (splitLimit maxLength) (le_max_right _ _) h
  · intro fuel hf
    exact splitChunks_fuel_congr (splitLimit maxLength) maxLength (le_max_right _ _)
      remaining.length remaining fuel remaining.length le_rfl hf le_rfl

/-- Witness for the C9 theorem on the fenced-code example: the step
shrinks the remaining text, and any overshot fuel bound (here 100) gives
the same chunk list. -/
theorem splitIntoSmartChunks_terminates_witness :
    (splitStep exJsFence (splitLimit 15)).2.length < exJsFence.length ∧
    splitChunks (splitLimit 15) 15 100 exJsFence =
      splitChunks (splitLimit 15) 15 exJsFence.length exJsFence :=
  ⟨(splitIntoSmartChunks_terminates exJsFence 15 (by decide)).1,
   (splitIntoSmartChunks_terminates exJsFence 15 (by decide)).2 100 (by decide)⟩

/-! ## Claim C4 -/

/-- Claim C4, counterexample: at `maxLength = 15` the first chunk of the
fenced-code example gets a closing fence appended and has length 18,
exceeding `maxLength`. -/
theorem C4_counterexample :
    (splitIntoSmartChunks exJsFence 15).all (fun c => decide (c.length ≤ 15)) = false := by
  decide

/-- Claim C4 (amended): for `maxLength ≥ 40` — whenever the reserved
margin `min(20, maxLength/10)` is at least the 4 characters of an
appended closing fence — every chunk returned by `splitIntoSmartChunks`
has length at most `maxLength`, including chunks to which a closing fence
was appended; for smaller `maxLength` an appended fence can push a chunk
over the limit. -/
theorem splitIntoSmartChunks_length_le (text : List Char) (maxLength : Nat)
    (h : 40 ≤ maxLength) :
    ∀ c ∈ splitIntoSmartChunks text maxLength, c.length ≤ maxLength := by
  unfold splitIntoSmartChunks
  split_ifs with h1 h2
  · intro c hc
    simp at hc
    subst hc
    simp
  · intro c hc
    simp at hc
    subst hc
    exact h2
  · have hd : 4 ≤ maxLength / 10 := by omega
    have hb : splitLimit maxLength + 4 ≤ maxLength := by
      unfold splitLimit
      omega
    exact splitChunks_length_le (splitLimit maxLength) maxLength
      (le_max_right _ _) hb text.length text le_rfl

/-- Witness for the C4 theorem at `maxLength = 40` on the fenced-code
example. -/
theorem splitIntoSmartChunks_length_le_witness :
    (splitIntoSmartChunks exJsFence 40).all (fun c => decide (c.length ≤ 40)) = true := by
  rw [List.all_eq_true]
  intro c hc
  exact decide_eq_true (splitIntoSmartChunks_length_le exJsFence 40 (by decide) c hc)

/-! ## Claim C5 -/

/-- Claim C5, counterexample: on an input whose own triple-backtick count
is odd, the final chunk is returned with an odd count. -/
theorem C5_counterexample :
    (splitIntoSmartChunks exUnbalanced 10).all
      (fun c => decide (countTBT c % 2 = 0)) = false := by
  decide

/-- Claim C5 (amended): every chunk except possibly the last contains an
even number of triple-backtick markers (a chunk cut inside an open fence
gets a closing fence appended, and the following remaining text is
re-opened with the same language tag unless the no-progress guard
abandons the reopen); the final chunk can be odd only because the input
itself was unbalanced, and in particular the spec's concrete example at
`maxLength = 15` never returns an odd-count chunk. -/
theorem splitIntoSmartChunks_even_fences (text : List Char) (maxLength : Nat) :
    (∀ c ∈ (splitIntoSmartChunks text maxLength).dropLast, countTBT c % 2 = 0) ∧
    (splitIntoSmartChunks exJsFence 15).all
      (fun c => decide (countTBT c % 2 = 0)) = true := by
  constructor
  · unfold splitIntoSmartChunks
    split_ifs
    · simp
    · simp
    · exact fun c hc => splitChunks_dropLast_even _ _ _ _ c hc
  · decide

/-- Witness for the C5 theorem on the unbalanced example (its non-final
chunks are all even). -/
theorem splitIntoSmartChunks_even_fences_witness :
    (splitIntoSmartChunks exUnbalanced 10).dropLast.all
      (fun c => decide (countTBT c % 2 = 0)) = true := by
  rw [List.all_eq_true]
  intro c hc
  exact decide_eq_true ((splitIntoSmartChunks_even_fences exUnbalanced 10).1 c hc)

/-! ## Claim C10 -/

/-- Claim C10: for every text, maxLength and ellipsis, `smartTruncate`
returns a string of length at most `maxLength` — the cut index reserves
`ellipsis.length + 8` characters, which covers the appended closing fence
and the ellipsis marker. -/
theorem smartTruncate_length_le (text : List Char) (maxLength : Nat)
    (ellipsis : List Char) :
    (smartTruncate text maxLength ellipsis).length ≤ maxLength := by
  unfold smartTruncate
  split_ifs with h1 h2
  · exact h1
  · simp [List.length_take]
  · have hbody : (truncBody text (maxLength - (ellipsis.length + 8))).length ≤
        maxLength - (ellipsis.length + 8) + 4 := by
      have hsub : (text.take (maxLength - (ellipsis.length + 8))).length ≤
          maxLength - (ellipsis.length + 8) := by
        simp [List.length_take]
      have hsplit := preferredSplitIndex_le _ _ hsub
      have htrim := trimEndL_length_le
        (text.take (preferredSplitIndex (text.take (maxLength - (ellipsis.length + 8)))
          (maxLength - (ellipsis.length + 8))))
      have htake : (text.take (preferredSplitIndex
          (text.take (maxLength - (ellipsis.length + 8)))
          (maxLength - (ellipsis.length + 8)))).length ≤
          preferredSplitIndex (text.take (maxLength - (ellipsis.length + 8)))
            (maxLength - (ellipsis.length + 8)) := by
        simp [List.length_take]
      have htbt : ('\n' :: tbt).length = 4 := rfl
      unfold truncBody
      split_ifs with h3
      · simp only [List.length_append, htbt]
        omega
      · omega
    simp only [List.length_append]
    omega

/-- Witness for the C6 theorem: three items where the second one's
processing fails. -/
theorem messageQueue_fifo_single_flight_witness :
    processQueue exProc busyQueue = (([] : List (QueueEvent Nat)), busyQueue) ∧
    (processQueue exProc (exCtxs.foldl enqueueMessage (emptyQueue Nat))).1 =
      (((List.range' 1 exCtxs.length).zip exCtxs).map (fun ic =>
        [QueueEvent.start ic.1, QueueEvent.settle ic.1 (exProc ic.2 ic.1)])).flatten :=
  ⟨(messageQueue_fifo_single_flight exCtxs exProc).2.2 busyQueue rfl,
   (messageQueue_fifo_single_flight exCtxs exProc).2.1⟩

/-! ## Link-preservation lemmas (claim C8) -/

theorem mkLink_length (a b : List Char) :
    (mkLink a b).length = a.length + b.length + 4 := by
  simp [mkLink]
  omega

theorem mkLink_cons (a b : List Char) :
    mkLink a b = '[' :: (a ++ (']' :: ('(' :: (b ++ [')'])))) := by
  simp [mkLink]

theorem mkLink_concat (a b : List Char) :
    mkLink a b = ('[' :: (a ++ (']' :: ('(' :: b)))) ++ [')'] := by
  simp [mkLink]

theorem scanToUnescaped_cons (close c : Char) (rest : List Char) (i : Nat) :
    scanToUnescaped close (c :: rest) i =
      if c = close then i
      else if c = '\\' then
        (match rest with
         | [] => i + 1
         | _ :: rest2 => scanToUnescaped close rest2 (i + 2))
      else scanToUnescaped close rest (i + 1) := by
  rw [scanToUnescaped.eq_def]

theorem scanToUnescaped_ge (close : Char) :
    ∀ (s : List Char) (i : Nat), i ≤ scanToUnescaped close s i
  | [], _ => le_rfl
  | c :: rest, i => by
    rw [scanToUnescaped_cons]
    split_ifs with h1 h2
    · exact le_rfl
    · cases rest with
      | nil =>
        show i ≤ i + 1
        omega
      | cons d rest2 =>
        show i ≤ scanToUnescaped close rest2 (i + 2)
        have h3 := scanToUnescaped_ge close rest2 (i + 2)
        omega
    · show i ≤ scanToUnescaped close rest (i + 1)
      have h3 := scanToUnescaped_ge close rest (i + 1)
      omega

theorem scanToUnescaped_clean (close : Char) :
    ∀ (u rest : List Char) (i : Nat),
      (∀ c ∈ u, c ≠ close ∧ c ≠ '\\') →
      scanToUnescaped close (u ++ close :: rest) i = i + u.length
  | [], rest, i, _ => by
    rw [List.nil_append, scanToUnescaped_cons, if_pos rfl]
    simp
  | c :: u2, rest, i, hcl => by
    have hc := hcl c (List.mem_cons_self c u2)
    rw [List.cons_append, scanToUnescaped_cons, if_neg hc.1, if_neg hc.2,
      scanToUnescaped_clean close u2 rest (i + 1)
        (fun d hd => hcl d (List.mem_cons_of_mem c hd))]
    simp
    omega

theorem findIdxFrom_ge (p : Char → Bool) (s : List Char) (i : Nat) :
    i ≤ findIdxFrom p s i := by
  unfold findIdxFrom
  omega

theorem jsIndexOfFrom_ge {s pat : List Char} {start c : Nat}
    (h : jsIndexOfFrom s pat start = some c) : start ≤ c := by
  unfold jsIndexOfFrom at h
  have hmem : c ∈ (List.range (s.length + 1)).filter
      (fun i => decide (start ≤ i) && matchesAt pat s i) :=
    List.mem_of_mem_head? (Option.mem_def.mpr h)
  have h2 := (List.mem_filter.mp hmem).2
  simp only [Bool.and_eq_true, decide_eq_true_eq] at h2
  exact h2.1

theorem bracketScan_inr_ge {text : List Char} {lim start j i2 : Nat}
    (h : bracketScan text lim start j = Sum.inr i2) : j + 1 ≤ i2 := by
  have h3 := scanToUnescaped_ge ')' (text.drop (j + 2)) (j + 2)
  unfold bracketScan at h
  split_ifs at h
  all_goals
    first
    | exact Sum.noConfusion h
    | (simp only [Sum.inr.injEq] at h; omega)

theorem safeStep_inr_gt {text : List Char} {lim i i2 : Nat}
    (h : safeStep text lim i = Sum.inr i2) : i < i2 := by
  unfold safeStep at h
  by_cases h1 : text.getD i ' ' = '\\' ∧ i + 1 < text.length
  · rw [if_pos h1] at h
    injection h with h6
    omega
  · rw [if_neg h1] at h
    by_cases h2 : text.getD i ' ' = btick
    · rw [if_pos h2] at h
      by_cases h3 : matchesAt tbt text i = true
      · rw [if_pos h3] at h
        cases hidx : jsIndexOfFrom text tbt
            (findIdxFrom (fun c => c = '\n') text (i + 3)) with
        | none =>
          rw [hidx] at h
          rw [show tbtSkip lim none = Sum.inl lim from rfl] at h
          cases h
        | some closeIndex =>
          rw [hidx] at h
          rw [show tbtSkip lim (some closeIndex) =
            (if lim ≤ closeIndex then Sum.inl lim else Sum.inr (closeIndex + 3))
            from rfl] at h
          have hge := jsIndexOfFrom_ge hidx
          have hge2 := findIdxFrom_ge (fun c => c = '\n') text (i + 3)
          by_cases h7 : lim ≤ closeIndex
          · rw [if_pos h7] at h
            cases h
          · rw [if_neg h7] at h
            injection h with h6
            omega
      · rw [if_neg h3] at h
        have hge := findIdxFrom_ge (fun c => c = btick) text (i + 1)
        by_cases h4 : findIdxFrom (fun c => c = btick) text (i + 1) < lim
        · rw [if_pos h4] at h
          injection h with h6
          omega
        · rw [if_neg h4] at h
          cases h
    · rw [if_neg h2] at h
      by_cases h5 : (text.getD i ' ' = '!' ∧ text.getD (i + 1) ' ' = '[' ∧
          i + 1 < text.length) ∨ text.getD i ' ' = '['
      · rw [if_pos h5] at h
        by_cases h6 : text.getD i ' ' = '['
        · rw [if_pos h6] at h
          have hge := bracketScan_inr_ge h
          have hge2 := scanToUnescaped_ge ']' (text.drop (i + 1)) (i + 1)
          omega
        · rw [if_neg h6] at h
          have hge := bracketScan_inr_ge h
          have hge2 := scanToUnescaped_ge ']' (text.drop (i + 2)) (i + 2)
          omega
      · rw [if_neg h5] at h
        injection h with h6
        omega

theorem safeStep_inl_cases {text : List Char} {lim i r : Nat}
    (h : safeStep text lim i = Sum.inl r) : r = lim ∨ r = i := by
  unfold safeStep at h
  by_cases h1 : text.getD i ' ' = '\\' ∧ i + 1 < text.length
  · rw [if_pos h1] at h
    cases h
  · rw [if_neg h1] at h
    by_cases h2 : text.getD i ' ' = btick
    · rw [if_pos h2] at h
      by_cases h3 : matchesAt tbt text i = true
      · rw [if_pos h3] at h
        cases hidx : jsIndexOfFrom text tbt
            (findIdxFrom (fun c => c = '\n') text (i + 3)) with
        | none =>
          rw [hidx] at h
          rw [show tbtSkip lim none = Sum.inl lim from rfl] at h
          injection h with h6
          exact Or.inl h6.symm
        | some closeIndex =>
          rw [hidx] at h
          rw [show tbtSkip lim (some closeIndex) =
            (if lim ≤ closeIndex then Sum.inl lim else Sum.inr (closeIndex + 3))
            from rfl] at h
          by_cases h7 : lim ≤ closeIndex
          · rw [if_pos h7] at h
            injection h with h6
            exact Or.inl h6.symm
          · rw [if_neg h7] at h
            cases h
      · rw [if_neg h3] at h
        by_cases h4 : findIdxFrom (fun c => c = btick) text (i + 1) < lim
        · rw [if_pos h4] at h
          cases h
        · rw [if_neg h4] at h
          injection h with h6
          exact Or.inr h6.symm
    · rw [if_neg h2] at h
      by_cases h5 : (text.getD i ' ' = '!' ∧ text.getD (i + 1) ' ' = '[' ∧
          i + 1 < text.length) ∨ text.getD i ' ' = '['
      · rw [if_pos h5] at h
        unfold bracketScan at h
        split_ifs at h
        all_goals
          first
          | exact Sum.noConfusion h
          | (simp only [Sum.inl.injEq] at h; exact Or.inr h.symm)
      · rw [if_neg h5] at h
        cases h

theorem safeScan_ge_min (text : List Char) (lim : Nat) :
    ∀ fuel i, min i lim ≤ safeScan text lim fuel i := by
  intro fuel
  induction fuel with
  | zero =>
    intro i
    rw [safeScan]
    omega
  | succ n ih =>
    intro i
    rw [safeScan]
    split_ifs with hi
    · cases hstep : safeStep text lim i with
      | inl r =>
        simp only [hstep]
        rcases safeStep_inl_cases hstep with h | h <;> omega
      | inr j =>
        simp only [hstep]
        have hj := safeStep_inr_gt hstep
        have h2 := ih j
        omega
    · omega

theorem isLinkPreChar_spec {c : Char} (h : isLinkPreChar c = true) :
    c ≠ btick ∧ c ≠ '\\' ∧ c ≠ '[' ∧ c ≠ '!' := by
  unfold isLinkPreChar at h
  simp only [Bool.not_eq_true', Bool.or_eq_false_iff, decide_eq_false_iff_not] at h
  exact ⟨h.1.1.1, h.1.1.2, h.1.2, h.2⟩

theorem getD_append_at (l₁ l₂ : List Char) (k : Nat) :
    (l₁ ++ l₂).getD (l₁.length + k) ' ' = l₂.getD k ' ' := by
  rw [List.getD_append_right _ _ _ _ (by omega)]
  congr 1
  omega

theorem drop_append_at (l₁ l₂ : List Char) (k : Nat) :
    (l₁ ++ l₂).drop (l₁.length + k) = l₂.drop k := by
  rw [List.drop_append_eq_append_drop, List.drop_eq_nil_of_le (by omega),
    List.nil_append]
  congr 1
  omega

theorem link_length (pre a b post : List Char) :
    (pre ++ mkLink a b ++ post).length =
      pre.length + (a.length + b.length + 4) + post.length := by
  simp [mkLink]
  omega

theorem link_getD_open (pre a b post : List Char) :
    (pre ++ mkLink a b ++ post).getD pre.length ' ' = '[' := by
  rw [List.append_assoc,
    show pre.length = pre.length + 0 from by omega, getD_append_at]
  rw [mkLink_cons, List.cons_append]
  rfl

theorem link_drop_afterOpen (pre a b post : List Char) :
    (pre ++ mkLink a b ++ post).drop (pre.length + 1) =
      a ++ (']' :: ('(' :: (b ++ (')' :: post)))) := by
  rw [List.append_assoc, drop_append_at, mkLink_cons, List.cons_append,
    List.drop_one, List.tail_cons]
  simp

theorem link_getD_paren (pre a b post : List Char) :
    (pre ++ mkLink a b ++ post).getD (pre.length + 1 + a.length + 1) ' ' = '(' := by
  rw [List.append_assoc,
    show pre.length + 1 + a.length + 1 = pre.length + (a.length + 2) from by omega,
    getD_append_at, mkLink_cons, List.cons_append,
    show a.length + 2 = a.length + 1 + 1 from by omega, List.getD_cons_succ,
    List.append_assoc,
    show a.length + 1 = a.length + 1 from rfl, getD_append_at]
  rfl

theorem link_drop_paren (pre a b post : List Char) :
    (pre ++ mkLink a b ++ post).drop (pre.length + 1 + a.length + 2) =
      b ++ (')' :: post) := by
  rw [List.append_assoc,
    show pre.length + 1 + a.length + 2 = pre.length + (a.length + 3) from by omega,
    drop_append_at, mkLink_cons, List.cons_append,
    show a.length + 3 = a.length + 2 + 1 from by omega, List.drop_succ_cons,
    List.append_assoc,
    show a.length + 2 = a.length + 2 from rfl, drop_append_at]
  simp

theorem safeStep_clean {text : List Char} {i : Nat} (lim : Nat)
    (hch : isLinkPreChar (text.getD i ' ') = true) :
    safeStep text lim i = Sum.inr (i + 1) := by
  obtain ⟨h1, h2, h3, h4⟩ := isLinkPreChar_spec hch
  unfold safeStep
  rw [if_neg (fun hyp => h2 hyp.1), if_neg h1, if_neg]
  rintro (hyp | hyp)
  · exact h4 hyp.1
  · exact h3 hyp

theorem safeStep_at_link (pre a b post : List Char) (lim : Nat)
    (ha : ∀ c ∈ a, c ≠ ']' ∧ c ≠ '\\')
    (hb : ∀ c ∈ b, c ≠ ')' ∧ c ≠ '\\') :
    (lim < pre.length + (mkLink a b).length →
      safeStep (pre ++ mkLink a b ++ post) lim pre.length = Sum.inl pre.length) ∧
    (pre.length + (mkLink a b).length ≤ lim →
      safeStep (pre ++ mkLink a b ++ post) lim pre.length =
        Sum.inr (pre.length + (mkLink a b).length)) := by
  have hopen := link_getD_open pre a b post
  have hlen := link_length pre a b post
  have hmlen := mkLink_length a b
  -- the scan for the closing bracket lands on the link's own `]`
  have hj : scanToUnescaped ']'
      ((pre ++ mkLink a b ++ post).drop (pre.length + 1)) (pre.length + 1) =
      pre.length + 1 + a.length := by
    rw [link_drop_afterOpen]
    exact scanToUnescaped_clean ']' a _ _ ha
  -- the scan for the closing parenthesis lands on the link's own `)`
  have hm : scanToUnescaped ')'
      ((pre ++ mkLink a b ++ post).drop (pre.length + 1 + a.length + 2))
      (pre.length + 1 + a.length + 2) =
      pre.length + 1 + a.length + 2 + b.length := by
    rw [link_drop_paren]
    exact scanToUnescaped_clean ')' b _ _ hb
  have hparen := link_getD_paren pre a b post
  have hstep : safeStep (pre ++ mkLink a b ++ post) lim pre.length =
      bracketScan (pre ++ mkLink a b ++ post) lim pre.length
        (pre.length + 1 + a.length) := by
    unfold safeStep
    rw [if_neg (fun hyp => by rw [hopen] at hyp; exact absurd hyp.1 (by decide)),
      if_neg (by rw [hopen]; decide),
      if_pos (Or.inr hopen), if_pos hopen, hj]
  constructor
  · intro hcase
    rw [hstep]
    unfold bracketScan
    by_cases hc1 : lim ≤ pre.length + 1 + a.length
    · rw [if_pos hc1]
    · rw [if_neg hc1,
        if_pos ⟨hparen, by omega⟩,
        show pre.length + 1 + a.length + 2 = pre.length + 1 + a.length + 2 from rfl,
        hm, if_pos (by omega)]
  · intro hcase
    rw [hstep]
    unfold bracketScan
    rw [if_neg (by omega),
      if_pos ⟨hparen, by omega⟩, hm, if_neg (by omega)]
    congr 1
    omega

theorem safeScan_stop (text : List Char) (lim fuel i : Nat) (hi : ¬ i < lim) :
    safeScan text lim (fuel + 1) i = lim := by
  rw [safeScan, if_neg hi]

theorem safeScan_succ_of_inl {text : List Char} {lim i r : Nat} (fuel : Nat)
    (hi : i < lim) (hstep : safeStep text lim i = Sum.inl r) :
    safeScan text lim (fuel + 1) i = r := by
  rw [safeScan, if_pos hi, hstep]

theorem safeScan_succ_of_inr {text : List Char} {lim i i2 : Nat} (fuel : Nat)
    (hi : i < lim) (hstep : safeStep text lim i = Sum.inr i2) :
    safeScan text lim (fuel + 1) i = safeScan text lim fuel i2 := by
  rw [safeScan, if_pos hi, hstep]

theorem getD_mem_of_lt {l : List Char} {i : Nat} (h : i < l.length) :
    l.getD i ' ' ∈ l := by
  rw [List.getD_eq_getElem _ _ h]
  exact List.getElem_mem _

theorem safeScan_link (pre a b post : List Char) (lim : Nat)
    (hpre : ∀ c ∈ pre, isLinkPreChar c = true)
    (ha : ∀ c ∈ a, c ≠ ']' ∧ c ≠ '\\')
    (hb : ∀ c ∈ b, c ≠ ')' ∧ c ≠ '\\') :
    ∀ fuel i, i ≤ pre.length → lim < fuel + i →
      (lim ≤ pre.length →
        safeScan (pre ++ mkLink a b ++ post) lim fuel i = lim) ∧
      (pre.length < lim → lim < pre.length + (mkLink a b).length →
        safeScan (pre ++ mkLink a b ++ post) lim fuel i = pre.length) ∧
      (pre.length + (mkLink a b).length ≤ lim →
        pre.length + (mkLink a b).length ≤
          safeScan (pre ++ mkLink a b ++ post) lim fuel i) := by
  intro fuel
  induction fuel with
  | zero =>
    intro i hi hfuel
    rw [safeScan]
    exact ⟨fun _ => rfl, fun h1 _ => by omega, fun h3 => h3⟩
  | succ fuel ih =>
    intro i hi hfuel
    by_cases hil : i < lim
    · by_cases his : i < pre.length
      · have hch : isLinkPreChar ((pre ++ mkLink a b ++ post).getD i ' ') = true := by
          rw [List.append_assoc, List.getD_append _ _ _ _ his]
          exact hpre _ (getD_mem_of_lt his)
        rw [safeScan_succ_of_inr fuel hil (safeStep_clean lim hch)]
        exact ih (i + 1) (by omega) (by omega)
      · have hieq : i = pre.length := by omega
        subst hieq
        obtain ⟨hlow, hhigh⟩ := safeStep_at_link pre a b post lim ha hb
        refine ⟨fun h1 => absurd hil (by omega), fun h2 h3 => ?_, fun h4 => ?_⟩
        · rw [safeScan_succ_of_inl fuel hil (hlow h3)]
        · rw [safeScan_succ_of_inr fuel hil (hhigh h4)]
          have := safeScan_ge_min (pre ++ mkLink a b ++ post) lim fuel
            (pre.length + (mkLink a b).length)
          omega
    · rw [safeScan_stop _ _ _ _ hil]
      exact ⟨fun _ => rfl, fun h1 _ => by omega, fun h3 => h3⟩

theorem getSafe_link (pre a b post : List Char) (sp : Nat)
    (hpre : ∀ c ∈ pre, isLinkPreChar c = true)
    (ha : ∀ c ∈ a, c ≠ ']' ∧ c ≠ '\\')
    (hb : ∀ c ∈ b, c ≠ ')' ∧ c ≠ '\\') :
    (getSafeMarkdownSplitPoint (pre ++ mkLink a b ++ post) sp ≤ pre.length ∨
     pre.length + (mkLink a b).length ≤
       getSafeMarkdownSplitPoint (pre ++ mkLink a b ++ post) sp) ∧
    (getSafeMarkdownSplitPoint (pre ++ mkLink a b ++ post) sp = 0 →
      pre.length = 0 ∨ sp = 0) := by
  have hlen := link_length pre a b post
  have hmlen := mkLink_length a b
  set lim := min sp (pre ++ mkLink a b ++ post).length with hlimdef
  have hg : getSafeMarkdownSplitPoint (pre ++ mkLink a b ++ post) sp =
      safeScan (pre ++ mkLink a b ++ post) lim (lim + 1) 0 := rfl
  obtain ⟨h1, h2, h3⟩ := safeScan_link pre a b post lim hpre ha hb (lim + 1) 0
    (Nat.zero_le _) (by omega)
  rw [hg]
  rcases Nat.lt_or_ge pre.length lim with hcase | hcase
  · rcases Nat.lt_or_ge lim (pre.length + (mkLink a b).length) with hc2 | hc2
    · rw [h2 hcase hc2]
      exact ⟨Or.inl le_rfl, fun h0 => Or.inl h0⟩
    · have := h3 hc2
      exact ⟨Or.inr this, fun h0 => by omega⟩
  · rw [h1 hcase]
    refine ⟨Or.inl hcase, fun h0 => Or.inr ?_⟩
    omega

theorem finalSplitPoint_link (pre a b post : List Char) (limit : Nat)
    (hpre : ∀ c ∈ pre, isLinkPreChar c = true)
    (ha : ∀ c ∈ a, c ≠ ']' ∧ c ≠ '\\')
    (hb : ∀ c ∈ b, c ≠ ')' ∧ c ≠ '\\')
    (hlim : 1 ≤ limit)
    (hlink : (mkLink a b).length ≤ limit) :
    finalSplitPoint (pre ++ mkLink a b ++ post) limit ≤ pre.length ∨
    pre.length + (mkLink a b).length ≤
      finalSplitPoint (pre ++ mkLink a b ++ post) limit := by
  have hsp0 : 1 ≤ preferredSplitIndex
      ((pre ++ mkLink a b ++ post).take limit) limit :=
    preferredSplitIndex_pos _ _ hlim
  -- the backslash adjustment cannot push the split point to 0: the char at
  -- index 0 is either a clean pre-text char or the link's own `[`
  have hspadj : 1 ≤ backslashAdjust (pre ++ mkLink a b ++ post)
      (preferredSplitIndex ((pre ++ mkLink a b ++ post).take limit) limit) := by
    unfold backslashAdjust
    split_ifs with hcond
    · obtain ⟨hpos, hbs⟩ := hcond
      have hne1 : preferredSplitIndex
          ((pre ++ mkLink a b ++ post).take limit) limit ≠ 1 := by
        intro h1
        rw [h1] at hbs
        rw [show (1 : Nat) - 1 = 0 from rfl] at hbs
        cases Nat.eq_zero_or_pos pre.length with
        | inl hs0 =>
          have ho := link_getD_open pre a b post
          rw [hs0] at ho
          rw [ho] at hbs
          exact absurd hbs (by decide)
        | inr hspos =>
          rw [List.append_assoc, List.getD_append _ _ _ _ hspos] at hbs
          exact absurd hbs (isLinkPreChar_spec (hpre _ (getD_mem_of_lt hspos))).2.1
      omega
    · exact hsp0
  obtain ⟨hdisj, hzero⟩ := getSafe_link pre a b post
    (backslashAdjust (pre ++ mkLink a b ++ post)
      (preferredSplitIndex ((pre ++ mkLink a b ++ post).take limit) limit))
    hpre ha hb
  unfold finalSplitPoint
  split_ifs with hz
  · rcases hzero hz with hs0 | hsp0'
    · right
      omega
    · omega
  · exact hdisj

theorem trimStartL_subset (s : List Char) : trimStartL s ⊆ s :=
  (List.dropWhile_suffix isJsWs).sublist.subset

theorem trimEndL_subset (s : List Char) : trimEndL s ⊆ s := by
  intro c hc
  unfold trimEndL at hc
  rw [List.mem_reverse] at hc
  have h2 := (List.dropWhile_suffix isJsWs).sublist.subset hc
  rwa [List.mem_reverse] at h2

theorem trimStartL_append_cons (u v : List Char) (c : Char)
    (hc : isJsWs c = false) :
    trimStartL (u ++ c :: v) = trimStartL u ++ c :: v := by
  unfold trimStartL
  rw [List.dropWhile_append]
  by_cases h : (u.dropWhile isJsWs).isEmpty
  · rw [if_pos h, List.isEmpty_iff.mp h, List.nil_append, List.dropWhile_cons,
      if_neg (by simp [hc])]
  · rw [if_neg h]

theorem trimEndL_append_cons (u t : List Char) (c : Char)
    (hc : isJsWs c = false) :
    trimEndL (u ++ c :: t) = u ++ c :: trimEndL t := by
  unfold trimEndL
  have hrev : (u ++ c :: t).reverse = t.reverse ++ c :: u.reverse := by simp
  rw [hrev, List.dropWhile_append]
  by_cases h : (t.reverse.dropWhile isJsWs).isEmpty
  · rw [if_pos h, List.isEmpty_iff.mp h, List.dropWhile_cons, if_neg (by simp [hc])]
    simp
  · rw [if_neg h]
    simp

theorem trimStartL_link_append (u a b post : List Char) :
    trimStartL (u ++ (mkLink a b ++ post)) = trimStartL u ++ (mkLink a b ++ post) := by
  rw [mkLink_cons, List.cons_append, trimStartL_append_cons u _ '[' (by decide)]

theorem trimEndL_link_append (u a b t : List Char) :
    trimEndL ((u ++ mkLink a b) ++ t) = (u ++ mkLink a b) ++ trimEndL t := by
  have h1 : (u ++ mkLink a b) ++ t =
      (u ++ ('[' :: (a ++ (']' :: ('(' :: b))))) ++ ')' :: t := by
    rw [mkLink_concat]
    simp [List.append_assoc]
  rw [h1, trimEndL_append_cons _ _ ')' (by decide), mkLink_concat]
  simp [List.append_assoc]

theorem countTBT_eq_zero : ∀ (l : List Char), (∀ c ∈ l, c ≠ btick) → countTBT l = 0
  | [], _ => rfl
  | [_], _ => rfl
  | [_, _], _ => rfl
  | x :: y :: z :: rest, h => by
    rw [countTBT_cons3, if_neg (fun hcon => h x (List.mem_cons_self x _) hcon.1),
      countTBT_eq_zero (y :: z :: rest) (fun c hc => h c (List.mem_cons_of_mem x hc))]

theorem infix_append_right {l u : List Char} (v : List Char) (h : l <:+: u) :
    l <:+: u ++ v := by
  obtain ⟨s, t, hst⟩ := h
  exact ⟨s, t ++ v, by rw [← hst]; simp⟩

theorem splitChunks_zero_ne (limit maxLength : Nat) (r : List Char) (hr : r ≠ []) :
    splitChunks limit maxLength 0 r = [r] := by
  cases r with
  | nil => exact absurd rfl hr
  | cons x t => rfl

theorem splitChunks_succ_ne (limit maxLength fuel : Nat) (r : List Char)
    (hr : r ≠ []) :
    splitChunks limit maxLength (fuel + 1) r =
      if r.length ≤ maxLength then [r]
      else (splitStep r limit).1 ::
        splitChunks limit maxLength fuel (splitStep r limit).2 := by
  cases r with
  | nil => exact absurd rfl hr
  | cons x t => rfl

theorem splitStep_fst_or (remaining : List Char) (limit : Nat) :
    (splitStep remaining limit).1 =
      trimEndL (remaining.take (finalSplitPoint remaining limit)) ∨
    (splitStep remaining limit).1 =
      trimEndL (remaining.take (finalSplitPoint remaining limit)) ++ '\n' :: tbt := by
  unfold splitStep splitStepFence
  split_ifs <;> simp

theorem splitChunks_link (limit maxLength : Nat) (a b : List Char)
    (ha : ∀ c ∈ a, c ≠ ']' ∧ c ≠ '\\')
    (hb : ∀ c ∈ b, c ≠ ')' ∧ c ≠ '\\')
    (hlim : 1 ≤ limit)
    (hlink : (mkLink a b).length ≤ limit) :
    ∀ fuel pre post, (∀ c ∈ pre, isLinkPreChar c = true) →
      ∃ ch ∈ splitChunks limit maxLength fuel (pre ++ mkLink a b ++ post),
        mkLink a b <:+: ch := by
  intro fuel
  induction fuel with
  | zero =>
    intro pre post hpre
    have hne : pre ++ mkLink a b ++ post ≠ [] := by
      intro h
      have h2 := congrArg List.length h
      rw [link_length] at h2
      simp at h2
    rw [splitChunks_zero_ne _ _ _ hne]
    exact ⟨_, List.mem_singleton.mpr rfl, List.infix_append _ _ _⟩
  | succ fuel ih =>
    intro pre post hpre
    have hne : pre ++ mkLink a b ++ post ≠ [] := by
      intro h
      have h2 := congrArg List.length h
      rw [link_length] at h2
      simp at h2
    rw [splitChunks_succ_ne _ _ _ _ hne]
    split_ifs with hlen
    · exact ⟨_, List.mem_singleton.mpr rfl, List.infix_append _ _ _⟩
    · rcases finalSplitPoint_link pre a b post limit hpre ha hb hlim hlink with hA | hB
      · -- the split point falls before the link: the chunk is pure pre-text
        -- and the link survives whole in the new remaining
        set sp := finalSplitPoint (pre ++ mkLink a b ++ post) limit with hsp
        have htake : (pre ++ mkLink a b ++ post).take sp = pre.take sp := by
          rw [List.append_assoc, List.take_append_eq_append_take,
            show sp - pre.length = 0 from by omega,
            List.take_zero, List.append_nil]
        have hz : countTBT (trimEndL (pre.take sp)) = 0 :=
          countTBT_eq_zero _ (fun c hc =>
            (isLinkPreChar_spec (hpre c (List.take_subset _ _ (trimEndL_subset _ hc)))).1)
        have hdrop : (pre ++ mkLink a b ++ post).drop sp =
            pre.drop sp ++ (mkLink a b ++ post) := by
          rw [List.append_assoc, List.drop_append_eq_append_drop,
            show sp - pre.length = 0 from by omega,
            List.drop_zero]
        have hstep : splitStep (pre ++ mkLink a b ++ post) limit =
            (trimEndL ((pre ++ mkLink a b ++ post).take sp),
             trimStartL ((pre ++ mkLink a b ++ post).drop sp)) := by
          unfold splitStep
          rw [← hsp, if_neg]
          intro hcon
          rw [htake, hz] at hcon
          exact hcon rfl
        have hrest : trimStartL ((pre ++ mkLink a b ++ post).drop sp) =
            trimStartL (pre.drop sp) ++ mkLink a b ++ post := by
          rw [hdrop, trimStartL_link_append, ← List.append_assoc]
        obtain ⟨ch, hm, hinf⟩ := ih (trimStartL (pre.drop sp)) post
          (fun c hc => hpre c (List.drop_subset _ _ (trimStartL_subset _ hc)))
        refine ⟨ch, ?_, hinf⟩
        rw [hstep]
        apply List.mem_cons_of_mem
        show ch ∈ splitChunks limit maxLength fuel
          (trimStartL ((pre ++ mkLink a b ++ post).drop sp))
        rw [hrest]
        exact hm
      · -- the split point falls at or after the link's end: the emitted
        -- chunk keeps the entire link
        set sp := finalSplitPoint (pre ++ mkLink a b ++ post) limit with hsp
        have htakeB : (pre ++ mkLink a b ++ post).take sp =
            (pre ++ mkLink a b) ++
              post.take (sp - (pre ++ mkLink a b).length) := by
          rw [List.take_append_eq_append_take,
            List.take_of_length_le (by rw [List.length_append]; exact hB)]
        have hinfix : mkLink a b <:+: trimEndL ((pre ++ mkLink a b ++ post).take sp) := by
          rw [htakeB, trimEndL_link_append]
          exact List.infix_append _ _ _
        rcases splitStep_fst_or (pre ++ mkLink a b ++ post) limit with hf | hf
        all_goals rw [← hsp] at hf
        · exact ⟨_, List.mem_cons_self _ _, by rw [hf]; exact hinfix⟩
        · exact ⟨_, List.mem_cons_self _ _,
            by rw [hf]; exact infix_append_right _ hinfix⟩

/-! ## Claim C8 -/

/-- Claim C8, counterexample to the original statement: the input
`"[aaaaaaaa](bbbbbbbb)"` is an intact markdown link, but with
`maxLength = 10` the link (length 20) cannot fit in any chunk, and
`splitIntoSmartChunks` returns `["[aaaaaaaa", "](bbbbbbb", "b)"]` — no
chunk contains the full link substring.  The universal claim "for every
input text … and every maxLength" is therefore false. -/
theorem C8_counterexample :
    ¬ ∃ ch ∈ splitIntoSmartChunks exLongLink 10, exLongLink <:+: ch := by
  decide

/-- Claim C8 (amended): for every text of the form `pre ++ [a](b) ++ post`
where no character of `pre` can open a markdown construct or an escape
(no backtick, backslash, `[` or `!`), the link text `a` contains no `]`
or backslash, the url `b` contains no `)` or backslash, and the link fits
within the internal split limit, `splitIntoSmartChunks` returns at least
one chunk containing the full `[a](b)` substring unbroken. -/
theorem splitIntoSmartChunks_link_intact (pre a b post : List Char) (maxLength : Nat)
    (hpre : ∀ c ∈ pre, isLinkPreChar c = true)
    (ha : ∀ c ∈ a, c ≠ ']' ∧ c ≠ '\\')
    (hb : ∀ c ∈ b, c ≠ ')' ∧ c ≠ '\\')
    (hlink : (mkLink a b).length ≤ splitLimit maxLength) :
    ∃ ch ∈ splitIntoSmartChunks (pre ++ mkLink a b ++ post) maxLength,
      mkLink a b <:+: ch := by
  unfold splitIntoSmartChunks
  have hne : pre ++ mkLink a b ++ post ≠ [] := by
    intro h
    have h2 := congrArg List.length h
    rw [link_length] at h2
    simp at h2
  rw [if_neg hne]
  split_ifs with hlen
  · exact ⟨_, List.mem_singleton.mpr rfl, List.infix_append _ _ _⟩
  · exact splitChunks_link (splitLimit maxLength) maxLength a b ha hb
      (le_max_right _ _) hlink _ pre post hpre

/-- Claim C8, witness: a concrete prose text around the link
`[X](https://x.com)` split at `maxLength = 30` keeps the link unbroken in
some chunk. -/
theorem splitIntoSmartChunks_link_intact_witness :
    ∃ ch ∈ splitIntoSmartChunks
      ("Beginning text here. ".toList ++ mkLink "X".toList "https://x.com".toList ++
        " and more text".toList) 30,
      mkLink "X".toList "https://x.com".toList <:+: ch :=
  splitIntoSmartChunks_link_intact _ _ _ _ 30
    (by decide) (by decide) (by decide) (by decide)

end Clawless
